import Mathlib

/-!
Verification development for the content-rec-template extraction pipeline.

The definitions below are a shallow embedding of `src/app.py`:
  * `normaliseL` / `normaliseStr`  ↦ `normalise_keep_newlines` (app.py:60-65)
  * `pyStripL` / `pyStripStr`      ↦ Python `str.strip()`
  * `Node`                          ↦ the parsed DOM (BeautifulSoup tags / strings)
  * `etpbList`, `extract_text_preserve_breaks` ↦ app.py:72-87
  * `annotate_anchor_text`          ↦ app.py:67-70
  * `emit_lines`, `branchLines`, `handle`, `handleList`,
    `extract_signposted_lines_from_body`, `dedupAdjacent` ↦ app.py:89-155
  * `find_placeholder_idx`, `replace_placeholder_with_lines` ↦ app.py:193-223
  * `page_title`, `page_description`, `resolve_meta` ↦ app.py:277-293
Components that exist in the repository but not under `src/` (the noise
filter and image emission of `content_rec_template.core.extract`, referenced
from `src/test.py`) are modelled from the spec and marked as such.
-/

/-- Horizontal whitespace, the character class of the regex `[ \t]`
used in `normalise_keep_newlines` (app.py:62,64). -/
def isHWS (c : Char) : Bool := decide (c = ' ' ∨ c = '\t')

/-- The non-breaking space character U+00A0 (`"\xa0"` in app.py:61). -/
def nbspChar : Char := Char.ofNat 160

/-- `s.replace("\r\n", "\n")` (app.py:61): left-to-right, non-overlapping
replacement of the two-character sequence CR LF by LF. -/
def replaceCRLF : List Char → List Char
  | [] => []
  | [c] => [c]
  | c :: d :: rest =>
    if c = '\r' ∧ d = '\n' then '\n' :: replaceCRLF rest
    else c :: replaceCRLF (d :: rest)

/-- `s.replace("\r", "\n")` (app.py:61). -/
def replaceCR (l : List Char) : List Char :=
  l.map (fun c => if c = '\r' then '\n' else c)

/-- `s.replace("\xa0", " ")` (app.py:61). -/
def replaceNBSP (l : List Char) : List Char :=
  l.map (fun c => if c = nbspChar then ' ' else c)

/-- `re.sub(r"[ \t]+", " ", s)` (app.py:62): each maximal run of
horizontal whitespace becomes a single space.  The boolean flag records
whether the previous character was part of a run already replaced. -/
def collapseHWSAux : Bool → List Char → List Char
  | _, [] => []
  | inRun, c :: rest =>
    if isHWS c then
      if inRun then collapseHWSAux true rest
      else ' ' :: collapseHWSAux true rest
    else c :: collapseHWSAux false rest

/-- `re.sub(r"[ \t]+", " ", s)` (app.py:62). -/
def collapseHWS (l : List Char) : List Char := collapseHWSAux false l

/-- One directed half of `re.sub(r"[ \t]*\n[ \t]*", "\n", s)` (app.py:64):
drop horizontal whitespace immediately following each newline.  The flag
records that we are right after a newline (possibly with dropped spaces
in between). -/
def dropAfterNLAux : Bool → List Char → List Char
  | _, [] => []
  | afterNL, c :: rest =>
    if c = '\n' then '\n' :: dropAfterNLAux true rest
    else if afterNL && isHWS c then dropAfterNLAux true rest
    else c :: dropAfterNLAux false rest

/-- `re.sub(r"[ \t]*\n[ \t]*", "\n", s)` (app.py:64): the regex deletes
exactly the horizontal-whitespace runs adjacent to a newline, i.e. the
runs following a newline plus (applied on the reversed string) the runs
preceding one. -/
def trimAroundNL (l : List Char) : List Char :=
  (dropAfterNLAux false (dropAfterNLAux false l).reverse).reverse

/-- `normalise_keep_newlines` (app.py:60-65) on character lists. -/
def normaliseL (l : List Char) : List Char :=
  trimAroundNL (collapseHWS (replaceNBSP (replaceCR (replaceCRLF l))))

/-- `normalise_keep_newlines` (app.py:60-65). -/
def normaliseStr (s : String) : String := ⟨normaliseL s.data⟩

/-- The whitespace class stripped by Python `str.strip()`: characters for
which `str.isspace()` holds (space, tab, LF, CR, VT, FF, the C1 separators,
NEL, NBSP and the Unicode space separators). -/
def isPySpace (c : Char) : Bool :=
  decide (c = ' ' ∨ c = '\t' ∨ c = '\n' ∨ c = '\r' ∨
    c.toNat = 11 ∨ c.toNat = 12 ∨
    (28 ≤ c.toNat ∧ c.toNat ≤ 31) ∨ c.toNat = 133 ∨ c.toNat = 160 ∨
    c.toNat = 5760 ∨ (8192 ≤ c.toNat ∧ c.toNat ≤ 8202) ∨
    c.toNat = 8232 ∨ c.toNat = 8233 ∨ c.toNat = 8239 ∨
    c.toNat = 8287 ∨ c.toNat = 12288)

/-- Python `str.strip()` on character lists. -/
def pyStripL (l : List Char) : List Char :=
  ((l.dropWhile isPySpace).reverse.dropWhile isPySpace).reverse

/-- Python `str.strip()`. -/
def pyStripStr (s : String) : String := ⟨pyStripL s.data⟩

/-- Python `text.split("\n")` (app.py:101): split on every newline,
keeping empty segments; the empty string yields one empty segment. -/
def splitNL : List Char → List (List Char)
  | [] => [[]]
  | c :: rest =>
    if c = '\n' then [] :: splitNL rest
    else
      match splitNL rest with
      | [] => [[c]]
      | s :: ss => (c :: s) :: ss

/-- Python membership test of a character in a string. -/
def containsChar (s : String) (c : Char) : Bool := decide (c ∈ s.data)

/-- Whether `pat` is a prefix of the second list (Python substring scan step). -/
def startsWithL : List Char → List Char → Bool
  | [], _ => true
  | _ :: _, [] => false
  | p :: ps, c :: cs => decide (p = c) && startsWithL ps cs

/-- Python `pat in s` substring containment. -/
def containsSub (pat : List Char) : List Char → Bool
  | [] => pat.isEmpty
  | c :: rest => startsWithL pat (c :: rest) || containsSub pat rest

mutual

/-- The parsed DOM: a BeautifulSoup `Tag` (name, attributes, children)
or a `NavigableString`.  Read-only input of the extraction; mutual with
its child list so that all traversals are structurally recursive. -/
inductive Node where
  | text : String → Node
  | elem : String → List (String × String) → NodeList → Node

/-- The ordered children of a DOM element. -/
inductive NodeList where
  | nil : NodeList
  | cons : Node → NodeList → NodeList

end

/-- View a child list as a plain list. -/
def NodeList.toList : NodeList → List Node
  | .nil => []
  | .cons c cs => c :: cs.toList

/-- Build a child list from a plain list. -/
def NodeList.ofList : List Node → NodeList
  | [] => .nil
  | c :: cs => .cons c (NodeList.ofList cs)

/-- The children of a node (`tag.children`; strings have none). -/
def childrenOf : Node → NodeList
  | .text _ => .nil
  | .elem _ _ cs => cs

/-- `ALWAYS_STRIP` (app.py:19). -/
def ALWAYS_STRIP : List String := ["script", "style", "noscript", "template"]

/-- The heading tag names (app.py:116). -/
def HEADING_TAGS : List String := ["h1", "h2", "h3", "h4", "h5", "h6"]

/-- First attribute value for a key, or a default
(Python `tag.get(key, default)`). -/
def getAttr (ats : List (String × String)) (key dflt : String) : String :=
  match ats.find? (fun p => decide (p.1 = key)) with
  | some p => p.2
  | none => dflt

/-- First attribute value for a key, if present (Python `tag.get(key)`). -/
def getAttrOpt (ats : List (String × String)) (key : String) : Option String :=
  (ats.find? (fun p => decide (p.1 = key))).map (fun p => p.2)

mutual

/-- All descendant `NavigableString`s of a node, in document order
(BeautifulSoup `strings`). -/
def nodeStrings : Node → List String
  | .text s => [s]
  | .elem _ _ cs => nodeStringsL cs

/-- All descendant `NavigableString`s of a child list, in order. -/
def nodeStringsL : NodeList → List String
  | .nil => []
  | .cons c cs => nodeStrings c ++ nodeStringsL cs

end

/-- BeautifulSoup `tag.get_text(" ", strip=True)`: each descendant string
stripped, blanks dropped, joined by one space. -/
def getTextSpStrip (n : Node) : String :=
  String.intercalate " "
    (((nodeStrings n).map pyStripStr).filter (fun s => decide (s ≠ "")))

/-- `annotate_anchor_text` (app.py:67-70). -/
def annotate_anchor_text (ann : Bool) (a : Node) : String :=
  let text := getTextSpStrip a
  let href :=
    match a with
    | .elem _ ats _ => getAttr ats ("href") ("")
    | .text _ => ""
  if ann && decide (href ≠ "") then text ++ " (→ " ++ href ++ ")" else text

mutual

/-- `extract_text_preserve_breaks` (app.py:72-87): visible text of one
node, `<br>` as newline, anchors as one annotated unit. -/
def extract_text_preserve_breaks (ann : Bool) : Node → String
  | .text s => s
  | .elem _ _ cs => etpbList ann cs

/-- The child loop of `extract_text_preserve_breaks` (app.py:76-87). -/
def etpbList (ann : Bool) : NodeList → String
  | .nil => ""
  | .cons c cs => etpbChild ann c ++ etpbList ann cs

/-- One child inside `extract_text_preserve_breaks` (app.py:78-86):
strings contribute themselves, `<br>` a newline, anchors their annotated
text, and any other tag the text of its own children. -/
def etpbChild (ann : Bool) : Node → String
  | .text s => s
  | .elem n ats ccs =>
    if n = "br" then "\n"
    else if n = "a" then annotate_anchor_text ann (.elem n ats ccs)
    else etpbList ann ccs

end

/-- `emit_lines` (app.py:99-109): normalise, split on newlines, emit each
non-blank segment as a signposted line; blank segments become a bare
`<p>` line for paragraphs and are dropped for headings. -/
def emit_lines (tag : String) (text : String) : List String :=
  (splitNL (normaliseStr text).data).flatMap (fun seg =>
    let ss := pyStripL seg
    if ss ≠ [] then ["<" ++ tag ++ "> " ++ String.mk ss]
    else if tag = "p" then ["<p>"]
    else [])

/-- `tag.find_all(name, recursive=False)`: direct element children with
the given name, in order. -/
def directByName (name : String) (cs : NodeList) : List Node :=
  cs.toList.filter (fun c =>
    match c with
    | .elem n _ _ => decide (n = name)
    | .text _ => false)

/-- `tag.find_all([n1, n2], recursive=False)`. -/
def directByNames (names : List String) (cs : NodeList) : List Node :=
  cs.toList.filter (fun c =>
    match c with
    | .elem n _ _ => decide (n ∈ names)
    | .text _ => false)

/-- The nested-list part of the `ul`/`ol` branch (app.py:132-136):
one extra level of `<li>` children of a directly nested list. -/
def subLiLines (ann : Bool) (subLi : Node) : List String :=
  let st := extract_text_preserve_breaks ann subLi
  if pyStripStr st ≠ "" then emit_lines ("p") st else []

/-- One `<li>` of the `ul`/`ol` branch (app.py:127-136). -/
def liLines (ann : Bool) (li : Node) : List String :=
  let txt := extract_text_preserve_breaks ann li
  (if pyStripStr txt ≠ "" then emit_lines ("p") txt else [])
    ++ (directByNames ["ul", "ol"] (childrenOf li)).flatMap (fun sub =>
        (directByName ("li") (childrenOf sub)).flatMap (subLiLines ann))

/-- The tag-dispatch of `handle` before the generic recursion
(app.py:112-138). -/
def branchLines (ann : Bool) (name : String) (cs : NodeList) : List String :=
  if decide (name ∈ HEADING_TAGS) then
    let txt := etpbList ann cs
    if pyStripStr txt ≠ "" then emit_lines name txt else []
  else if name = "p" then
    let txt := etpbList ann cs
    if pyStripStr txt ≠ "" || containsChar txt '\n' then emit_lines ("p") txt
    else []
  else if name = "ul" || name = "ol" then
    (directByName ("li") cs).flatMap (liLines ann)
  else []

mutual

/-- `handle` (app.py:111-143): dispatch on the tag, then recurse into all
element children. -/
def handle (ann : Bool) : Node → List String
  | .text _ => []
  | .elem name _ cs =>
    if decide (name ∈ ALWAYS_STRIP) then []
    else branchLines ann name cs ++ handleList ann cs

/-- The recursion of `handle` over children (app.py:141-143); strings
are skipped. -/
def handleList (ann : Bool) : NodeList → List String
  | .nil => []
  | .cons c cs => handle ann c ++ handleList ann cs

end

/-- The adjacent-duplicate collapse (app.py:150-154) after the first
element has been emitted. -/
def dedupAux (prev : String) : List String → List String
  | [] => []
  | x :: xs => if x = prev then dedupAux prev xs else x :: dedupAux x xs

/-- The deduplication post-pass of
`extract_signposted_lines_from_body` (app.py:149-155). -/
def dedupAdjacent : List String → List String
  | [] => []
  | x :: xs => x :: dedupAux x xs

/-- `extract_signposted_lines_from_body` (app.py:89-155): handle every
element child of the body, then collapse adjacent duplicates. -/
def extract_signposted_lines_from_body (body : Node) (ann : Bool) : List String :=
  dedupAdjacent (handleList ann (childrenOf body))

/-- `find_placeholder_paragraph` (app.py:198-202) as the index of the
first paragraph whose text contains the placeholder; the document is
modelled as the list of paragraph texts in `iter_paragraphs_and_tables`
order. -/
def find_placeholder_idx (ph : String) : List String → Option Nat
  | [] => none
  | p :: ps =>
    if containsSub ph.data p.data then some 0
    else (find_placeholder_idx ph ps).map (· + 1)

/-- `replace_placeholder_with_lines` (app.py:211-223): error when the
placeholder is missing; with no lines, clear the target paragraph; else
the first line replaces the target and the rest are inserted after it. -/
def replace_placeholder_with_lines (doc : List String) (ph : String)
    (lines : List String) : Except String (List String) :=
  match find_placeholder_idx ph doc with
  | none => .error ("Placeholder \x27" ++ ph ++ "\x27 not found in template.")
  | some i =>
    if lines.isEmpty then .ok (doc.set i "")
    else .ok (doc.take i ++ lines ++ doc.drop (i + 1))

/-- The body-content placeholder used by `build_docx` (app.py:241). -/
def PAGE_BODY_CONTENT : String := "[PAGE BODY CONTENT]"

mutual

/-- One step of BeautifulSoup `find(name)`: the node itself if it has
the name, else its first matching descendant. -/
def findInNode (name : String) : Node → Option Node
  | .text _ => none
  | .elem n ats ccs =>
    if n = name then some (.elem n ats ccs) else findInNL name ccs

/-- BeautifulSoup `find(name)` over a child list: the first element in
document (pre-)order with the given name. -/
def findInNL (name : String) : NodeList → Option Node
  | .nil => none
  | .cons c cs =>
    match findInNode name c with
    | some r => some r
    | none => findInNL name cs

end

mutual

/-- One step of BeautifulSoup
`find("meta", attrs={"name": "description"})`. -/
def findMetaDescNode : Node → Option (List (String × String))
  | .text _ => none
  | .elem n ats ccs =>
    if n = "meta" ∧ getAttrOpt ats ("name") = some ("description") then some ats
    else findMetaDescNL ccs

/-- BeautifulSoup `find("meta", attrs={"name": "description"})` over a
child list, returning the matching attribute map. -/
def findMetaDescNL : NodeList → Option (List (String × String))
  | .nil => none
  | .cons c cs =>
    match findMetaDescNode c with
    | some r => some r
    | none => findMetaDescNL cs

end

/-- BeautifulSoup `tag.string`: a string is itself; a tag with exactly
one child defers to that child; anything else has no string. -/
def nodeString : Node → Option String
  | .text s => some s
  | .elem _ _ (.cons c .nil) => nodeString c
  | .elem _ _ _ => none

/-- The `title` computation of `process_url` (app.py:278): the stripped
`<title>` string when present and truthy, else the sentinel. -/
def page_title (head : Node) : String :=
  match findInNL ("title") (childrenOf head) with
  | none => "N/A"
  | some t =>
    match nodeString t with
    | none => "N/A"
    | some s => if s = "" then "N/A" else pyStripStr s

/-- The `description` computation of `process_url` (app.py:279-280). -/
def page_description (head : Node) : String :=
  match findMetaDescNL (childrenOf head) with
  | none => "N/A"
  | some ats =>
    match getAttrOpt ats ("content") with
    | none => "N/A"
    | some c => if c = "" then "N/A" else pyStripStr c

/-- The metadata fields of `process_url` relevant to the Metadata
Resolver contract (app.py:285-293). -/
structure MetaOut where
  title : String
  description : String
  title_len : Nat
  description_len : Nat
deriving Repr, DecidableEq

/-- The meta map assembly of `process_url` (app.py:285-293). -/
def resolve_meta (head : Node) : MetaOut :=
  let t := page_title head
  let d := page_description head
  { title := t
    description := d
    title_len := if t = "N/A" then 0 else t.length
    description_len := if d = "N/A" then 0 else d.length }

/-- Python `str.lower()` restricted to ASCII letters (the noise rules are
ASCII). -/
def lowerChar (c : Char) : Char :=
  if 'A' ≤ c ∧ c ≤ 'Z' then Char.ofNat (c.toNat + 32) else c

/-- Python `str.lower()` on strings. -/
def toLowerStr (s : String) : String := ⟨s.data.map lowerChar⟩

/-- Modelled from the spec: the NoiseRule set of
`content_rec_template.core.extract` (absent from `src/`), "a fixed,
ordered set of lowercase substrings" including the boilerplate phrases
named in the spec. -/
def NOISE_RULES : List String := ["loading results", "apply filters", "sort by"]

/-- Modelled from the spec: the Noise Filter of
`content_rec_template.core.extract` (absent from `src/`): a string is
non-noise if empty; otherwise it is noise when its lowercased, trimmed
form contains one of the rules as a substring. -/
def is_noise (s : String) : Bool :=
  decide (s ≠ "") &&
    NOISE_RULES.any (fun r => containsSub r.data (toLowerStr (pyStripStr s)).data)

/-- Modelled from the spec: the `<p>` emission path of
`content_rec_template.core.extract` (absent from `src/`) with noise
filtering: as `emit_lines`, but a non-blank paragraph segment that is
noise is dropped. -/
def emit_lines_filtered (tag : String) (text : String) : List String :=
  (splitNL (normaliseStr text).data).flatMap (fun seg =>
    let ss := pyStripL seg
    if ss ≠ [] then
      if tag = "p" && is_noise (String.mk ss) then []
      else ["<" ++ tag ++ "> " ++ String.mk ss]
    else if tag = "p" then ["<p>"]
    else [])

/-- Modelled from the spec: the generic-container flush path of
`content_rec_template.core.extract` (absent from `src/`): the buffered
inline text is emitted as paragraph lines via the same split/blank rules
as the `<p>` path, with the Noise Filter applied. -/
def flush_inline_buffer (buf : String) : List String :=
  emit_lines_filtered ("p") buf

/-- Modelled from the spec: double-quote escaping of image attribute
values in `content_rec_template.core.extract` (absent from `src/`). -/
def escape_quotes (s : String) : String :=
  ⟨s.data.flatMap (fun c => if c = '"' then ['\\', '"'] else [c])⟩

/-- Modelled from the spec: image emission of
`content_rec_template.core.extract` (absent from `src/`): read `alt`
(default empty), include `src` exactly when `include_img_src` is enabled
and `src` is non-empty, both values quote-escaped. -/
def img_line (include_img_src : Bool) (ats : List (String × String)) : String :=
  let alt := getAttr ats ("alt") ("")
  let src := getAttr ats ("src") ("")
  if include_img_src && decide (src ≠ "") then
    "<img alt=\"" ++ escape_quotes alt ++ "\" src=\"" ++ escape_quotes src ++ "\">"
  else
    "<img alt=\"" ++ escape_quotes alt ++ "\">"

/-- The tag names a signposted line can carry (headings and paragraph). -/
def TAG_SET : List String := ["h1", "h2", "h3", "h4", "h5", "h6", "p"]

/-- The shape invariant of emitted lines: a bare blank-paragraph marker,
or a signpost followed by one space and a non-blank, single-line,
fully stripped text. -/
def LineShape (s : String) : Prop :=
  s = "<p>" ∨
    ∃ t r, t ∈ TAG_SET ∧ s = "<" ++ t ++ "> " ++ r ∧ r ≠ "" ∧
      '\n' ∉ r.data ∧ pyStripStr r = r

/-- Pair constraint: not two adjacent horizontal-whitespace characters. -/
def okHH (a b : Char) : Prop := isHWS a = false ∨ isHWS b = false

/-- Pair constraint: no horizontal whitespace right after a newline. -/
def okNH (a b : Char) : Prop := a = '\n' → isHWS b = false

/-- Pair constraint: no horizontal whitespace right before a newline. -/
def okHN (a b : Char) : Prop := isHWS a = true → b ≠ '\n'

/-- The invariant characterising outputs of `normaliseL`: no carriage
return, non-breaking space or tab; no two adjacent horizontal-whitespace
characters; no horizontal whitespace adjacent to a newline. -/
def NormalisedL (l : List Char) : Prop :=
  (∀ c ∈ l, c ≠ '\r' ∧ c ≠ nbspChar ∧ c ≠ '\t') ∧
  l.Chain' okHH ∧ l.Chain' okNH ∧ l.Chain' okHN

/-! ## Helper lemmas: substring containment -/

theorem startsWithL_self_append : ∀ (p t : List Char), startsWithL p (p ++ t) = true
  | [], _ => rfl
  | _ :: ps, t => by
    simp [startsWithL, startsWithL_self_append ps t]

theorem containsSub_self_append (p y : List Char) : containsSub p (p ++ y) = true := by
  cases p with
  | nil =>
    cases y with
    | nil => rfl
    | cons c cs => simp [containsSub, startsWithL]
  | cons q qs =>
    have h := startsWithL_self_append (q :: qs) y
    simp only [List.cons_append] at h
    simp [containsSub, h]

theorem containsSub_mid : ∀ (x p y : List Char), containsSub p (x ++ p ++ y) = true
  | [], p, y => by simpa using containsSub_self_append p y
  | c :: x, p, y => by
    simp only [List.cons_append, containsSub, Bool.or_eq_true]
    exact Or.inr (containsSub_mid x p y)

theorem strData_append (s t : String) : (s ++ t).data = s.data ++ t.data := rfl

/-! ## Helper lemmas: the placeholder finder -/

theorem find_placeholder_idx_eq_none (ph : String) :
    ∀ doc : List String,
      find_placeholder_idx ph doc = none ↔
        ∀ p ∈ doc, containsSub ph.data p.data = false
  | [] => by simp [find_placeholder_idx]
  | p :: ps => by
    by_cases h : containsSub ph.data p.data = true
    · simp [find_placeholder_idx, h]
    · simp only [Bool.not_eq_true] at h
      simp [find_placeholder_idx, h, Option.map_eq_none,
        find_placeholder_idx_eq_none ph ps]

/-- C7: `replace_placeholder_with_lines` fails with an error naming the
missing `[PAGE BODY CONTENT]` token exactly when no paragraph of the
template contains it, and completes without error when some paragraph
contains it (app.py:211-223, called at app.py:241). -/
theorem c7_template_error (doc lines : List String) :
    ((∀ p ∈ doc, containsSub PAGE_BODY_CONTENT.data p.data = false) →
      ∃ e, replace_placeholder_with_lines doc PAGE_BODY_CONTENT lines =
          Except.error e ∧ containsSub PAGE_BODY_CONTENT.data e.data = true) ∧
    ((∃ p ∈ doc, containsSub PAGE_BODY_CONTENT.data p.data = true) →
      ∃ d, replace_placeholder_with_lines doc PAGE_BODY_CONTENT lines = Except.ok d) := by
  constructor
  · intro h
    have hn : find_placeholder_idx PAGE_BODY_CONTENT doc = none :=
      (find_placeholder_idx_eq_none PAGE_BODY_CONTENT doc).mpr h
    refine ⟨"Placeholder \x27" ++ PAGE_BODY_CONTENT ++ "\x27 not found in template.",
      ?_, ?_⟩
    · simp [replace_placeholder_with_lines, hn]
    · rw [strData_append, strData_append]
      exact containsSub_mid _ _ _
  · rintro ⟨p, hp, hc⟩
    cases hfind : find_placeholder_idx PAGE_BODY_CONTENT doc with
    | none =>
      have := (find_placeholder_idx_eq_none PAGE_BODY_CONTENT doc).mp hfind p hp
      rw [hc] at this
      exact absurd this (by simp)
    | some i =>
      by_cases hl : lines.isEmpty
      · exact ⟨doc.set i "", by simp [replace_placeholder_with_lines, hfind, hl]⟩
      · exact ⟨doc.take i ++ lines ++ doc.drop (i + 1),
          by simp [replace_placeholder_with_lines, hfind, hl]⟩

/-- C7 witness: a template without the token errors (and the error names
the token); one with it succeeds. -/
theorem c7_template_error_witness :
    (∃ e, replace_placeholder_with_lines ["x"] PAGE_BODY_CONTENT ["L"] =
        Except.error e ∧ containsSub PAGE_BODY_CONTENT.data e.data = true) ∧
    (∃ d, replace_placeholder_with_lines ["a", "x [PAGE BODY CONTENT] y"]
        PAGE_BODY_CONTENT ["L"] = Except.ok d) :=
  ⟨(c7_template_error ["x"] ["L"]).1 (by decide),
   (c7_template_error ["a", "x [PAGE BODY CONTENT] y"] ["L"]).2
     ⟨"x [PAGE BODY CONTENT] y", by simp, by decide⟩⟩

/-- C10: with an empty line sequence and the placeholder present,
`replace_placeholder_with_lines` clears the placeholder paragraph,
inserts no paragraphs, and returns without error (app.py:215-217). -/
theorem c10_empty_lines (doc : List String) (i : Nat)
    (h : find_placeholder_idx PAGE_BODY_CONTENT doc = some i) :
    replace_placeholder_with_lines doc PAGE_BODY_CONTENT [] =
      Except.ok (doc.set i "") ∧
    (doc.set i "").length = doc.length := by
  constructor
  · simp [replace_placeholder_with_lines, h]
  · exact List.length_set doc i ""

/-- C10 witness at a concrete one-paragraph template. -/
theorem c10_empty_lines_witness :
    replace_placeholder_with_lines ["[PAGE BODY CONTENT]"] PAGE_BODY_CONTENT [] =
      Except.ok [""] ∧
    (["[PAGE BODY CONTENT]"].set 0 "").length = ["[PAGE BODY CONTENT]"].length :=
  c10_empty_lines ["[PAGE BODY CONTENT]"] 0 (by decide)

/-! ## C1: the nested-list example -/

/-- The subtree of C1: a list with items A and B, B containing a nested
list with item C. -/
def c1Body : Node :=
  .elem "body" [] (.ofList
    [.elem "ul" [] (.ofList
      [.elem "li" [] (.ofList [.text "A"]),
       .elem "li" [] (.ofList
         [.text "B",
          .elem "ul" [] (.ofList [.elem "li" [] (.ofList [.text "C"])])])])])

/-- C1 counterexample: the extraction does NOT emit the three paragraph
lines A, B, C claimed — `extract_text_preserve_breaks` on the second
`<li>` recurses through the nested `<ul>`, so its line reads `BC`. -/
theorem c1_counterexample :
    extract_signposted_lines_from_body c1Body false ≠ ["<p> A", "<p> B", "<p> C"] := by
  decide

/-- C1 amended: the extraction emits exactly three paragraph lines, in
order, with texts A, BC and C (the middle item text includes the nested
list text; app.py:126-136, 72-87, deduplicated at app.py:149-155). -/
theorem c1_amended :
    extract_signposted_lines_from_body c1Body false = ["<p> A", "<p> BC", "<p> C"] := by
  decide

/-! ## C6: image emission (modelled from the spec) -/

/-- C6: an Image line carries the `alt` attribute (default empty); the
`src` value appears exactly when `include_img_src` is on and `src` is
non-empty, else only `alt` is emitted; concrete instances included. -/
theorem c6_img_line :
    (∀ ats : List (String × String),
      img_line false ats =
        "<img alt=\"" ++ escape_quotes (getAttr ats ("alt") ("")) ++ "\">") ∧
    (∀ (ats : List (String × String)) (inc : Bool),
      getAttr ats ("src") ("") = "" →
      img_line inc ats =
        "<img alt=\"" ++ escape_quotes (getAttr ats ("alt") ("")) ++ "\">") ∧
    (∀ ats : List (String × String),
      getAttr ats ("src") ("") ≠ "" →
      img_line true ats =
        "<img alt=\"" ++ escape_quotes (getAttr ats ("alt") ("")) ++ "\" src=\"" ++
          escape_quotes (getAttr ats ("src") ("")) ++ "\">") ∧
    img_line false [("alt", "Beach")] = "<img alt=\"Beach\">" ∧
    img_line true [("alt", "Beach"), ("src", "/x.jpg")] =
      "<img alt=\"Beach\" src=\"/x.jpg\">" := by
  refine ⟨?_, ?_, ?_, by decide, by decide⟩
  · intro ats
    simp [img_line]
  · intro ats inc h
    simp [img_line, h]
  · intro ats h
    simp [img_line, h]

/-- C6 witness: `include_img_src` enabled but `src` absent emits only
`alt`. -/
theorem c6_img_line_witness :
    img_line true [("alt", "Beach")] = "<img alt=\"Beach\">" :=
  c6_img_line.2.1 [("alt", "Beach")] true (by decide)

/-! ## C8: the metadata resolver -/

/-- C8: the resolver returns the stripped `<title>` text (sentinel when
the element is absent or has no truthy string), the stripped description
`content` (sentinel likewise), and the length fields are the character
counts except 0 at the sentinel (app.py:277-293). -/
theorem c8_metadata (head : Node) :
    ((resolve_meta head).title_len =
      if (resolve_meta head).title = "N/A" then 0
      else (resolve_meta head).title.length) ∧
    ((resolve_meta head).description_len =
      if (resolve_meta head).description = "N/A" then 0
      else (resolve_meta head).description.length) ∧
    (findInNL ("title") (childrenOf head) = none →
      (resolve_meta head).title = "N/A") ∧
    (∀ t, findInNL ("title") (childrenOf head) = some t → nodeString t = none →
      (resolve_meta head).title = "N/A") ∧
    (∀ t, findInNL ("title") (childrenOf head) = some t → nodeString t = some "" →
      (resolve_meta head).title = "N/A") ∧
    (∀ t s, findInNL ("title") (childrenOf head) = some t → nodeString t = some s →
      s ≠ "" → (resolve_meta head).title = pyStripStr s) ∧
    (findMetaDescNL (childrenOf head) = none →
      (resolve_meta head).description = "N/A") ∧
    (∀ ats, findMetaDescNL (childrenOf head) = some ats →
      getAttrOpt ats ("content") = none → (resolve_meta head).description = "N/A") ∧
    (∀ ats, findMetaDescNL (childrenOf head) = some ats →
      getAttrOpt ats ("content") = some "" →
      (resolve_meta head).description = "N/A") ∧
    (∀ ats c, findMetaDescNL (childrenOf head) = some ats →
      getAttrOpt ats ("content") = some c → c ≠ "" →
      (resolve_meta head).description = pyStripStr c) := by
  refine ⟨rfl, rfl, ?_, ?_, ?_, ?_, ?_, ?_, ?_, ?_⟩
  · intro h
    simp [resolve_meta, page_title, h]
  · intro t ht hs
    simp [resolve_meta, page_title, ht, hs]
  · intro t ht hs
    simp [resolve_meta, page_title, ht, hs]
  · intro t s ht hs hne
    simp [resolve_meta, page_title, ht, hs, hne]
  · intro h
    simp [resolve_meta, page_description, h]
  · intro ats h hc
    simp [resolve_meta, page_description, h, hc]
  · intro ats h hc
    simp [resolve_meta, page_description, h, hc]
  · intro ats c h hc hne
    simp [resolve_meta, page_description, h, hc, hne]

/-- C8 witness: a concrete head with a padded title resolves to the
stripped text. -/
theorem c8_metadata_witness :
    (resolve_meta (.elem "head" [] (.ofList [.elem "title" [] (.ofList [.text "  Hi  "])]))).title =
      pyStripStr "  Hi  " :=
  (c8_metadata (.elem "head" [] (.ofList [.elem "title" [] (.ofList [.text "  Hi  "])]))).2.2.2.2.2.1
    (.elem "title" [] (.ofList [.text "  Hi  "])) "  Hi  " rfl rfl (by decide)

/-! ## C2: idempotence of whitespace normalisation -/

theorem isHWS_nl : isHWS '\n' = false := by decide

theorem isHWS_not_tab {c : Char} (h : isHWS c = false) : c ≠ '\t' := by
  intro hc
  subst hc
  simp [isHWS] at h

theorem replaceCR_no_cr (l : List Char) : ∀ c ∈ replaceCR l, c ≠ '\r' := by
  intro c hc
  obtain ⟨a, _, rfl⟩ := List.mem_map.mp hc
  by_cases h : a = '\r' <;> simp [h]

theorem replaceNBSP_no_nbsp (l : List Char) : ∀ c ∈ replaceNBSP l, c ≠ nbspChar := by
  intro c hc
  obtain ⟨a, _, rfl⟩ := List.mem_map.mp hc
  by_cases h : a = nbspChar
  · subst h
    simp only [if_pos rfl]
    decide
  · simp only [if_neg h]
    exact h

theorem replaceNBSP_pres_no_cr (l : List Char) (h : ∀ c ∈ l, c ≠ '\r') :
    ∀ c ∈ replaceNBSP l, c ≠ '\r' := by
  intro c hc
  obtain ⟨a, ha, rfl⟩ := List.mem_map.mp hc
  by_cases hb : a = nbspChar <;> simp [hb, h a ha]

/-- Characters emitted by the whitespace-collapse pass are either the
replacement space or non-whitespace input characters; the result has no
two adjacent horizontal-whitespace characters; with the in-run flag set
the result does not start with horizontal whitespace. -/
theorem collapse_spec : ∀ l : List Char,
    (∀ b, (∀ c ∈ collapseHWSAux b l, c = ' ' ∨ (c ∈ l ∧ isHWS c = false)) ∧
      (collapseHWSAux b l).Chain' okHH) ∧
    (∀ c, (collapseHWSAux true l).head? = some c → isHWS c = false) := by
  intro l
  induction l with
  | nil => simp [collapseHWSAux]
  | cons c rest ih =>
    by_cases hw : isHWS c
    · constructor
      · intro b
        cases b with
        | true =>
          simp only [collapseHWSAux, hw, if_true]
          refine ⟨fun d hd => ?_, (ih.1 true).2⟩
          rcases ((ih.1 true).1 d hd) with h | ⟨h1, h2⟩
          · exact Or.inl h
          · exact Or.inr ⟨List.mem_cons_of_mem c h1, h2⟩
        | false =>
          simp only [collapseHWSAux, hw, if_true, if_false]
          constructor
          · intro d hd
            rcases List.mem_cons.mp hd with rfl | hd
            · exact Or.inl rfl
            · rcases ((ih.1 true).1 d hd) with h | ⟨h1, h2⟩
              · exact Or.inl h
              · exact Or.inr ⟨List.mem_cons_of_mem c h1, h2⟩
          · refine List.chain'_cons'.mpr ⟨fun y hy => ?_, (ih.1 true).2⟩
            exact Or.inr (ih.2 y (Option.mem_def.mp hy))
      · intro d hd
        simp only [collapseHWSAux, hw, if_true] at hd
        exact ih.2 d hd
    · have hwf : isHWS c = false := by simpa using hw
      constructor
      · intro b
        simp only [collapseHWSAux, hwf, Bool.false_eq_true, if_false]
        constructor
        · intro d hd
          rcases List.mem_cons.mp hd with rfl | hd
          · exact Or.inr ⟨List.mem_cons_self _ _, hwf⟩
          · rcases ((ih.1 false).1 d hd) with h | ⟨h1, h2⟩
            · exact Or.inl h
            · exact Or.inr ⟨List.mem_cons_of_mem c h1, h2⟩
        · exact List.chain'_cons'.mpr ⟨fun y _ => Or.inl hwf, (ih.1 false).2⟩
      · intro d hd
        simp only [collapseHWSAux, hwf, Bool.false_eq_true, if_false] at hd
        simp only [List.head?_cons, Option.some.injEq] at hd
        subst hd
        exact hwf

/-- The newline-trim pass keeps the head of the list when the flag is
clear. -/
theorem dropA_head (l : List Char) :
    (dropAfterNLAux false l).head? = l.head? := by
  cases l with
  | nil => rfl
  | cons c rest =>
    by_cases hc : c = '\n'
    · simp [dropAfterNLAux, hc]
    · simp [dropAfterNLAux, hc]

/-- The newline-trim pass never leaves horizontal whitespace right after
a newline, and with the flag set its result does not start with
horizontal whitespace. -/
theorem dropA_okNH : ∀ l : List Char,
    (∀ b, (dropAfterNLAux b l).Chain' okNH) ∧
    (∀ c, (dropAfterNLAux true l).head? = some c → isHWS c = false) := by
  intro l
  induction l with
  | nil => simp [dropAfterNLAux]
  | cons c rest ih =>
    by_cases hc : c = '\n'
    · subst hc
      constructor
      · intro b
        simp only [dropAfterNLAux, if_true]
        exact List.chain'_cons'.mpr
          ⟨fun y hy _ => ih.2 y (Option.mem_def.mp hy), ih.1 true⟩
      · intro d hd
        simp only [dropAfterNLAux, if_true, List.head?_cons,
          Option.some.injEq] at hd
        subst hd
        exact isHWS_nl
    · by_cases hw : isHWS c
      · constructor
        · intro b
          cases b with
          | true =>
            simp only [dropAfterNLAux, hc, if_false, hw, Bool.and_true, if_true]
            exact ih.1 true
          | false =>
            simp only [dropAfterNLAux, hc, if_false, Bool.false_and,
              Bool.false_eq_true]
            exact List.chain'_cons'.mpr
              ⟨fun y _ hcn => absurd hcn hc, ih.1 false⟩
        · intro d hd
          simp only [dropAfterNLAux, hc, if_false, hw, Bool.and_true,
            if_true] at hd
          exact ih.2 d hd
      · have hwf : isHWS c = false := by simpa using hw
        constructor
        · intro b
          simp only [dropAfterNLAux, hc, if_false, hwf, Bool.and_false,
            Bool.false_eq_true]
          exact List.chain'_cons'.mpr
            ⟨fun y _ hcn => absurd hcn hc, ih.1 false⟩
        · intro d hd
          simp only [dropAfterNLAux, hc, if_false, hwf, Bool.and_false,
            Bool.false_eq_true, List.head?_cons, Option.some.injEq] at hd
          subst hd
          exact hwf

/-- The newline-trim pass preserves any adjacent-pair invariant that
always accepts a pair starting with a newline. -/
theorem dropA_pres (R : Char → Char → Prop) (hR : ∀ d, R '\n' d) :
    ∀ l : List Char, l.Chain' R → ∀ b, (dropAfterNLAux b l).Chain' R := by
  intro l
  induction l with
  | nil => intro _ b; simp [dropAfterNLAux]
  | cons c rest ih =>
    intro h b
    obtain ⟨hhead, htail⟩ := List.chain'_cons'.mp h
    by_cases hc : c = '\n'
    · subst hc
      simp only [dropAfterNLAux, if_true]
      exact List.chain'_cons'.mpr ⟨fun y _ => hR y, ih htail true⟩
    · by_cases hw : (b && isHWS c) = true
      · simp only [dropAfterNLAux, hc, if_false, hw, if_true]
        cases b with
        | false => simp at hw
        | true => exact ih htail true
      · simp only [dropAfterNLAux, hc, if_false, hw, Bool.false_eq_true]
        refine List.chain'_cons'.mpr ⟨fun y hy => ?_, ih htail false⟩
        have : y ∈ rest.head? := by
          rw [Option.mem_def, ← dropA_head rest]
          exact Option.mem_def.mp hy
        exact hhead y this
  
/-- Characters of the newline-trim output come from its input. -/
theorem dropA_subset : ∀ (l : List Char) (b : Bool) (c : Char),
    c ∈ dropAfterNLAux b l → c ∈ l := by
  intro l
  induction l with
  | nil => intro b c hc; simp [dropAfterNLAux] at hc
  | cons x rest ih =>
    intro b c hc
    by_cases hx : x = '\n'
    · subst hx
      simp only [dropAfterNLAux, if_true] at hc
      rcases List.mem_cons.mp hc with rfl | hc
      · exact List.mem_cons_self _ _
      · exact List.mem_cons_of_mem _ (ih true c hc)
    · by_cases hw : (b && isHWS x) = true
      · simp only [dropAfterNLAux, hx, if_false, hw, if_true] at hc
        exact List.mem_cons_of_mem _ (ih true c hc)
      · simp only [dropAfterNLAux, hx, if_false, hw, Bool.false_eq_true] at hc
        rcases List.mem_cons.mp hc with rfl | hc
        · exact List.mem_cons_self _ _
        · exact List.mem_cons_of_mem _ (ih false c hc)

theorem okHH_symm {a b : Char} (h : okHH a b) : okHH b a := h.symm

theorem okNH_flip_okHN {a b : Char} (h : okNH a b) : okHN b a := by
  intro hb
  intro hcn
  subst hcn
  rw [h rfl] at hb
  exact Bool.false_ne_true hb

theorem okHN_flip_okNH {a b : Char} (h : okHN a b) : okNH b a := by
  intro hb
  subst hb
  cases hw : isHWS a with
  | false => rfl
  | true => exact absurd rfl (h hw)

/-- Lemma A: the output of `normaliseL` satisfies the normalisation
invariant. -/
theorem normaliseL_normalised (l : List Char) : NormalisedL (normaliseL l) := by
  set r3 : List Char := replaceNBSP (replaceCR (replaceCRLF l)) with hr3
  have h3cr : ∀ c ∈ r3, c ≠ '\r' :=
    replaceNBSP_pres_no_cr _ (replaceCR_no_cr _)
  have h3nb : ∀ c ∈ r3, c ≠ nbspChar := replaceNBSP_no_nbsp _
  set r4 : List Char := collapseHWS r3 with hr4
  have h4 := collapse_spec r3
  have h4chars : ∀ c ∈ r4, c ≠ '\r' ∧ c ≠ nbspChar ∧ c ≠ '\t' := by
    intro c hc
    rcases (h4.1 false).1 c hc with rfl | ⟨h1, h2⟩
    · refine ⟨by decide, ?_, by decide⟩
      simp [nbspChar]
    · exact ⟨h3cr c h1, h3nb c h1, isHWS_not_tab h2⟩
  have h4HH : r4.Chain' okHH := (h4.1 false).2
  set f : List Char := dropAfterNLAux false r4 with hf
  have hfchars : ∀ c ∈ f, c ≠ '\r' ∧ c ≠ nbspChar ∧ c ≠ '\t' :=
    fun c hc => h4chars c (dropA_subset r4 false c hc)
  have hfNH : f.Chain' okNH := (dropA_okNH r4).1 false
  have hfHH : f.Chain' okHH :=
    dropA_pres okHH (fun d => Or.inl isHWS_nl) r4 h4HH false
  set g : List Char := dropAfterNLAux false f.reverse with hg
  have hrevHH : f.reverse.Chain' okHH :=
    List.chain'_reverse.mpr (hfHH.imp fun _ _ h => okHH_symm h)
  have hgHH : g.Chain' okHH :=
    dropA_pres okHH (fun d => Or.inl isHWS_nl) f.reverse hrevHH false
  have hgNHrev : g.Chain' okNH := (dropA_okNH f.reverse).1 false
  have hrevNH : f.reverse.Chain' (flip okNH) := List.chain'_reverse.mpr hfNH
  have hgflipNH : g.Chain' (flip okNH) :=
    dropA_pres (flip okNH) (fun d hd => isHWS_nl) f.reverse hrevNH false
  have hfinal : normaliseL l = g.reverse := rfl
  rw [hfinal]
  refine ⟨?_, ?_, ?_, ?_⟩
  · intro c hc
    exact hfchars c (List.mem_reverse.mp (dropA_subset f.reverse false c
      (List.mem_reverse.mp hc)))
  · exact List.chain'_reverse.mpr (hgHH.imp fun _ _ h => okHH_symm h)
  · exact List.chain'_reverse.mpr
      (hgflipNH.imp fun a b h => h)
  · exact List.chain'_reverse.mpr
      (hgNHrev.imp fun a b h => okNH_flip_okHN h)

theorem replaceCRLF_id : ∀ l : List Char, (∀ c ∈ l, c ≠ '\r') → replaceCRLF l = l
  | [], _ => rfl
  | [c], _ => rfl
  | c :: d :: rest, h => by
    have hc : c ≠ '\r' := h c (List.mem_cons_self c _)
    simp only [replaceCRLF]
    rw [if_neg (fun hand => hc hand.1)]
    exact congrArg (c :: ·)
      (replaceCRLF_id (d :: rest) (fun x hx => h x (List.mem_cons_of_mem c hx)))

theorem map_id_on {f : Char → Char} : ∀ l : List Char,
    (∀ c ∈ l, f c = c) → l.map f = l := by
  intro l h
  induction l with
  | nil => rfl
  | cons c rest ih =>
    simp only [List.map_cons, h c (List.mem_cons_self _ _),
      ih (fun x hx => h x (List.mem_cons_of_mem c hx))]

theorem replaceCR_id (l : List Char) (h : ∀ c ∈ l, c ≠ '\r') :
    replaceCR l = l :=
  map_id_on l (fun c hc => by simp [h c hc])

theorem replaceNBSP_id (l : List Char) (h : ∀ c ∈ l, c ≠ nbspChar) :
    replaceNBSP l = l :=
  map_id_on l (fun c hc => by simp [h c hc])

/-- The collapse pass is the identity on inputs without tabs and without
adjacent horizontal whitespace (with the in-run flag, additionally the
input must not start with whitespace). -/
theorem collapse_id : ∀ l : List Char, (∀ c ∈ l, c ≠ '\t') → l.Chain' okHH →
    collapseHWSAux false l = l ∧
    ((∀ c, l.head? = some c → isHWS c = false) → collapseHWSAux true l = l) := by
  intro l
  induction l with
  | nil => intro _ _; simp [collapseHWSAux]
  | cons c rest ih =>
    intro ht hch
    obtain ⟨hhead, htail⟩ := List.chain'_cons'.mp hch
    have ihr := ih (fun x hx => ht x (List.mem_cons_of_mem c hx)) htail
    by_cases hw : isHWS c
    · have hsp : c = ' ' := by
        have := ht c (List.mem_cons_self c _)
        rcases (by simpa [isHWS] using hw : c = ' ' ∨ c = '\t') with h | h
        · exact h
        · exact absurd h this
      constructor
      · simp only [collapseHWSAux, hw, if_true, Bool.false_eq_true, if_false]
        have hresthead : ∀ x, rest.head? = some x → isHWS x = false := by
          intro x hx
          rcases hhead x (Option.mem_def.mpr hx) with h | h
          · rw [hw] at h; exact absurd h (by simp)
          · exact h
        rw [ihr.2 hresthead, hsp]
      · intro hh
        have := hh c rfl
        rw [hw] at this
        exact absurd this (by simp)
    · have hwf : isHWS c = false := by simpa using hw
      constructor
      · simp only [collapseHWSAux, hwf, Bool.false_eq_true, if_false]
        rw [ihr.1]
      · intro _
        simp only [collapseHWSAux, hwf, Bool.false_eq_true, if_false]
        rw [ihr.1]

/-- The newline-trim pass is the identity on inputs with no horizontal
whitespace after a newline (with the flag set, additionally the input
must not start with whitespace). -/
theorem dropA_id : ∀ l : List Char, l.Chain' okNH →
    dropAfterNLAux false l = l ∧
    ((∀ c, l.head? = some c → isHWS c = false) → dropAfterNLAux true l = l) := by
  intro l
  induction l with
  | nil => intro _; simp [dropAfterNLAux]
  | cons c rest ih =>
    intro hch
    obtain ⟨hhead, htail⟩ := List.chain'_cons'.mp hch
    have ihr := ih htail
    by_cases hc : c = '\n'
    · subst hc
      have hresthead : ∀ x, rest.head? = some x → isHWS x = false :=
        fun x hx => hhead x (Option.mem_def.mpr hx) rfl
      constructor
      · simp only [dropAfterNLAux, if_true]
        rw [ihr.2 hresthead]
      · intro _
        simp only [dropAfterNLAux, if_true]
        rw [ihr.2 hresthead]
    · constructor
      · simp only [dropAfterNLAux, hc, if_false, Bool.false_and,
          Bool.false_eq_true]
        rw [ihr.1]
      · intro hh
        have hwf : isHWS c = false := hh c rfl
        simp only [dropAfterNLAux, hc, if_false, hwf, Bool.and_false,
          Bool.false_eq_true]
        rw [ihr.1]

/-- Lemma B: `normaliseL` is the identity on lists satisfying the
normalisation invariant. -/
theorem normalised_id (l : List Char) (h : NormalisedL l) : normaliseL l = l := by
  obtain ⟨hchars, hHH, hNH, hHN⟩ := h
  have h1 : replaceCRLF l = l := replaceCRLF_id l (fun c hc => (hchars c hc).1)
  have h2 : replaceCR l = l := replaceCR_id l (fun c hc => (hchars c hc).1)
  have h3 : replaceNBSP l = l := replaceNBSP_id l (fun c hc => (hchars c hc).2.1)
  have h4 : collapseHWSAux false l = l :=
    (collapse_id l (fun c hc => (hchars c hc).2.2) hHH).1
  have h5 : dropAfterNLAux false l = l := (dropA_id l hNH).1
  have hrevNH : l.reverse.Chain' okNH := by
    rw [List.chain'_reverse]
    exact hHN.imp fun a b hab => okHN_flip_okNH hab
  have h6 : dropAfterNLAux false l.reverse = l.reverse := (dropA_id l.reverse hrevNH).1
  unfold normaliseL trimAroundNL collapseHWS
  rw [h1, h2, h3, h4, h5, h6, List.reverse_reverse]

/-- C2: whitespace normalisation is idempotent — normalising an
already-normalised string returns it unchanged (app.py:60-65). -/
theorem c2_normalise_idempotent (s : String) :
    normaliseStr (normaliseStr s) = normaliseStr s :=
  congrArg String.mk (normalised_id (normaliseL s.data) (normaliseL_normalised s.data))

/-! ## Helper lemmas: Python strip -/

theorem dropWhile_head_not {p : Char → Bool} :
    ∀ (l : List Char) (c : Char), (l.dropWhile p).head? = some c → p c = false := by
  intro l
  induction l with
  | nil => intro c hc; simp at hc
  | cons x rest ih =>
    intro c hc
    by_cases hx : p x
    · rw [List.dropWhile_cons_of_pos hx] at hc
      exact ih c hc
    · rw [List.dropWhile_cons_of_neg hx] at hc
      simp only [List.head?_cons, Option.some.injEq] at hc
      subst hc
      simpa using hx

theorem dropWhile_decomp {p : Char → Bool} :
    ∀ l : List Char, ∃ t, t ++ l.dropWhile p = l := by
  intro l
  induction l with
  | nil => exact ⟨[], rfl⟩
  | cons x rest ih =>
    by_cases hx : p x
    · obtain ⟨t, ht⟩ := ih
      exact ⟨x :: t, by rw [List.dropWhile_cons_of_pos hx, List.cons_append, ht]⟩
    · exact ⟨[], by rw [List.dropWhile_cons_of_neg hx, List.nil_append]⟩

theorem dropWhile_mem {p : Char → Bool} {l : List Char} {c : Char}
    (h : c ∈ l.dropWhile p) : c ∈ l := by
  obtain ⟨t, ht⟩ := dropWhile_decomp (p := p) l
  rw [← ht]
  exact List.mem_append_right t h

theorem getLast?_append_right : ∀ (t X : List Char), X ≠ [] →
    (t ++ X).getLast? = X.getLast? := by
  intro t X hX
  rw [← List.head?_reverse, ← List.head?_reverse, List.reverse_append]
  cases hXr : X.reverse with
  | nil => exact absurd (by simpa using hXr) hX
  | cons a as => rfl

theorem pyStripL_head_not (l : List Char) (c : Char)
    (h : (pyStripL l).head? = some c) : isPySpace c = false := by
  unfold pyStripL at h
  rw [List.head?_reverse] at h
  obtain ⟨t, ht⟩ := dropWhile_decomp (p := isPySpace) (l.dropWhile isPySpace).reverse
  have hne : (l.dropWhile isPySpace).reverse.dropWhile isPySpace ≠ [] := by
    intro hnil
    rw [hnil] at h
    simp at h
  have hlast : ((l.dropWhile isPySpace).reverse).getLast? = some c := by
    rw [← ht, getLast?_append_right t _ hne]
    exact h
  rw [List.getLast?_reverse] at hlast
  exact dropWhile_head_not l c hlast

theorem pyStripL_last_not (l : List Char) (c : Char)
    (h : (pyStripL l).getLast? = some c) : isPySpace c = false := by
  unfold pyStripL at h
  rw [List.getLast?_reverse] at h
  exact dropWhile_head_not _ c h

theorem dropWhile_id_of_head {p : Char → Bool} (l : List Char)
    (h : ∀ c, l.head? = some c → p c = false) : l.dropWhile p = l := by
  cases l with
  | nil => rfl
  | cons c rest =>
    have := h c rfl
    rw [List.dropWhile_cons_of_neg (by simp [this])]

theorem pyStripL_idem (l : List Char) : pyStripL (pyStripL l) = pyStripL l := by
  have step1 : (pyStripL l).dropWhile isPySpace = pyStripL l :=
    dropWhile_id_of_head _ (fun c hc => pyStripL_head_not l c hc)
  have step2 : (pyStripL l).reverse.dropWhile isPySpace = (pyStripL l).reverse :=
    dropWhile_id_of_head _ (fun c hc =>
      pyStripL_last_not l c (by rw [← List.head?_reverse]; exact hc))
  show ((((pyStripL l).dropWhile isPySpace).reverse.dropWhile isPySpace)).reverse
      = pyStripL l
  rw [step1, step2, List.reverse_reverse]

theorem pyStripStr_idem (s : String) : pyStripStr (pyStripStr s) = pyStripStr s :=
  congrArg String.mk (pyStripL_idem s.data)

theorem pyStripL_mem {l : List Char} {c : Char} (h : c ∈ pyStripL l) : c ∈ l := by
  unfold pyStripL at h
  rw [List.mem_reverse] at h
  have h2 := dropWhile_mem h
  rw [List.mem_reverse] at h2
  exact dropWhile_mem h2

/-! ## Helper lemmas: newline splitting -/

theorem splitNL_of_no_nl : ∀ l : List Char, '\n' ∉ l → splitNL l = [l] := by
  intro l
  induction l with
  | nil => intro _; rfl
  | cons c rest ih =>
    intro h
    have hc : ¬(c = '\n') := fun e => h (e ▸ List.mem_cons_self _ _)
    have hrest : '\n' ∉ rest := fun e => h (List.mem_cons_of_mem c e)
    simp only [splitNL, hc, if_false, ih hrest]

theorem splitNL_cons_of_ne (c : Char) (rest : List Char) (hc : ¬(c = '\n')) :
    splitNL (c :: rest) =
      match splitNL rest with
      | [] => [[c]]
      | s :: ss => (c :: s) :: ss := by
  simp [splitNL, hc]

theorem splitNL_append_nl : ∀ (a t : List Char), '\n' ∉ a →
    splitNL (a ++ '\n' :: t) = a :: splitNL t := by
  intro a
  induction a with
  | nil => intro t _; simp [splitNL]
  | cons c a' ih =>
    intro t h
    have hc : ¬(c = '\n') := fun e => h (e ▸ List.mem_cons_self _ _)
    have ha' : '\n' ∉ a' := fun e => h (List.mem_cons_of_mem c e)
    rw [List.cons_append, splitNL_cons_of_ne c _ hc, ih t ha']

theorem splitNL_ne_nil : ∀ l : List Char, splitNL l ≠ [] := by
  intro l
  cases l with
  | nil => simp [splitNL]
  | cons c rest =>
    by_cases hc : c = '\n'
    · simp [splitNL, hc]
    · simp only [splitNL, hc, if_false]
      cases h : splitNL rest with
      | nil => simp
      | cons s ss => simp

theorem splitNL_mem_no_nl : ∀ (l : List Char) (seg : List Char),
    seg ∈ splitNL l → '\n' ∉ seg := by
  intro l
  induction l with
  | nil =>
    intro seg hseg
    simp only [splitNL, List.mem_singleton] at hseg
    subst hseg
    simp
  | cons c rest ih =>
    intro seg hseg
    by_cases hc : c = '\n'
    · simp only [splitNL, hc, if_true, List.mem_cons] at hseg
      rcases hseg with rfl | hseg
      · simp
      · exact ih seg hseg
    · simp only [splitNL, hc, if_false] at hseg
      cases h : splitNL rest with
      | nil => exact absurd h (splitNL_ne_nil rest)
      | cons s ss =>
        rw [h] at hseg
        rcases List.mem_cons.mp hseg with rfl | hseg
        · intro hmem
          rcases List.mem_cons.mp hmem with he | hmem
          · exact hc he.symm
          · exact ih s (h ▸ List.mem_cons_self _ _) hmem
        · exact ih seg (h ▸ List.mem_cons_of_mem s hseg)

/-! ## C5: the noise filter drops "sort by" paragraphs -/

/-- C5: a paragraph-type line whose normalised, lowercased, trimmed text
is exactly "sort by" is dropped entirely, both by the `<p>` emission path
and by the generic-container flush path (modelled from the spec, sections
4.2 case 6 and 4.3). -/
theorem c5_sort_by_dropped (s : String)
    (h : toLowerStr (pyStripStr (normaliseStr s)) = "sort by")
    (hn : '\n' ∉ (normaliseStr s).data) :
    emit_lines_filtered ("p") s = [] ∧ flush_inline_buffer s = [] := by
  have hmain : emit_lines_filtered ("p") s = [] := by
    unfold emit_lines_filtered
    rw [splitNL_of_no_nl _ hn]
    have hds : pyStripL (normaliseStr s).data = (pyStripStr (normaliseStr s)).data := rfl
    have hne : pyStripL (normaliseStr s).data ≠ [] := by
      intro hnil
      have : pyStripStr (normaliseStr s) = "" := congrArg String.mk hnil
      rw [this] at h
      exact absurd h (by decide)
    have hnoise : is_noise (String.mk (pyStripL (normaliseStr s).data)) = true := by
      have hmk : String.mk (pyStripL (normaliseStr s).data) =
          pyStripStr (normaliseStr s) := rfl
      rw [hmk]
      unfold is_noise
      have h1 : pyStripStr (pyStripStr (normaliseStr s)) =
          pyStripStr (normaliseStr s) := pyStripStr_idem _
      have h2 : decide (pyStripStr (normaliseStr s) ≠ "") = true := by
        simp only [decide_eq_true_eq]
        intro he
        rw [he] at h
        exact absurd h (by decide)
      rw [h2, h1, h, Bool.true_and]
      decide
    simp only [List.flatMap_cons, List.flatMap_nil, List.append_nil]
    rw [if_pos hne, if_pos (by rw [hnoise]; decide)]
  exact ⟨hmain, hmain⟩

/-- C5 witness at a concrete mixed-case, padded input. -/
theorem c5_sort_by_dropped_witness :
    emit_lines_filtered ("p") "  Sort By " = [] ∧
    flush_inline_buffer "  Sort By " = [] :=
  c5_sort_by_dropped "  Sort By " (by decide) (by decide)

/-! ## C4: the adjacent-duplicate post-pass -/

theorem dedupAux_chain : ∀ (l : List String) (prev : String),
    (dedupAux prev l).Chain' (fun a b => a ≠ b) ∧
    (∀ c, (dedupAux prev l).head? = some c → c ≠ prev) := by
  intro l
  induction l with
  | nil => intro prev; simp [dedupAux]
  | cons x xs ih =>
    intro prev
    by_cases hx : x = prev
    · simp only [dedupAux, hx, if_true]
      exact ih prev
    · simp only [dedupAux, hx, if_false]
      constructor
      · refine List.chain'_cons'.mpr ⟨fun y hy => ?_, (ih x).1⟩
        exact fun e => (ih x).2 y (Option.mem_def.mp hy) e.symm
      · intro c hc
        simp only [List.head?_cons, Option.some.injEq] at hc
        subst hc
        exact hx

theorem dedupAdjacent_chain (l : List String) :
    (dedupAdjacent l).Chain' (fun a b => a ≠ b) := by
  cases l with
  | nil => simp [dedupAdjacent]
  | cons x xs =>
    simp only [dedupAdjacent]
    refine List.chain'_cons'.mpr ⟨fun y hy => ?_, (dedupAux_chain xs x).1⟩
    exact fun e => (dedupAux_chain xs x).2 y (Option.mem_def.mp hy) e.symm

theorem dedupAux_id : ∀ (l : List String) (prev : String),
    l.Chain' (fun a b => a ≠ b) → (∀ c, l.head? = some c → c ≠ prev) →
    dedupAux prev l = l := by
  intro l
  induction l with
  | nil => intro prev _ _; rfl
  | cons x xs ih =>
    intro prev hch hh
    obtain ⟨hhead, htail⟩ := List.chain'_cons'.mp hch
    have hx : ¬(x = prev) := hh x rfl
    simp only [dedupAux, hx, if_false]
    rw [ih x htail (fun c hc e => hhead c (Option.mem_def.mpr hc) (by rw [e]) )]

theorem dedupAux_replicate : ∀ (m : Nat) (x : String) (t : List String),
    dedupAux x (List.replicate m x ++ t) = dedupAux x t := by
  intro m
  induction m with
  | zero => intro x t; rfl
  | succ k ih =>
    intro x t
    rw [List.replicate_succ, List.cons_append,
      show dedupAux x (x :: (List.replicate k x ++ t)) =
        dedupAux x (List.replicate k x ++ t) from by simp [dedupAux],
      ih x t]

/-- Over a maximal-run decomposition (positive counts, adjacent run
values distinct, the first value different from the previous element),
the adjacent-dedup loop keeps exactly one occurrence per run. -/
theorem dedupAux_runs : ∀ (runs : List (String × Nat)) (prev : String),
    (∀ p ∈ runs, 0 < p.2) →
    runs.Chain' (fun p q => p.1 ≠ q.1) →
    (∀ p, runs.head? = some p → p.1 ≠ prev) →
    dedupAux prev (runs.flatMap (fun p => List.replicate p.2 p.1)) =
      runs.map (fun p => p.1) := by
  intro runs
  induction runs with
  | nil => intro prev _ _ _; rfl
  | cons r rs ih =>
    intro prev hpos hch hhd
    obtain ⟨hhead, htail⟩ := List.chain'_cons'.mp hch
    obtain ⟨x, n⟩ := r
    have hx : x ≠ prev := hhd (x, n) rfl
    cases n with
    | zero => exact absurd (hpos (x, 0) (List.mem_cons_self _ _)) (by simp)
    | succ m =>
      rw [List.flatMap_cons, List.replicate_succ, List.cons_append]
      show dedupAux prev (x :: (List.replicate m x ++
          (rs.flatMap (fun p => List.replicate p.2 p.1)))) =
        x :: rs.map (fun p => p.1)
      rw [show dedupAux prev (x :: (List.replicate m x ++
          (rs.flatMap (fun p => List.replicate p.2 p.1)))) =
          x :: dedupAux x (List.replicate m x ++
            (rs.flatMap (fun p => List.replicate p.2 p.1))) from by
          simp [dedupAux, hx],
        dedupAux_replicate]
      rw [ih x (fun p hp => hpos p (List.mem_cons_of_mem _ hp)) htail
        (fun p hp e => hhead p (Option.mem_def.mpr hp) e.symm)]

/-- C4: the extraction output never has two adjacent identical lines;
the post-pass leaves untouched any sequence already free of adjacent
duplicates; and over every maximal-run decomposition (positive run
lengths, adjacent runs carrying distinct lines) it collapses each run to
exactly one occurrence of its line while preserving every run — in
particular identical lines in non-adjacent runs all survive
(app.py:149-155). -/
theorem c4_adjacent_dedup :
    (∀ (body : Node) (ann : Bool),
      (extract_signposted_lines_from_body body ann).Chain' (fun a b => a ≠ b)) ∧
    (∀ l : List String, l.Chain' (fun a b => a ≠ b) → dedupAdjacent l = l) ∧
    (∀ runs : List (String × Nat),
      (∀ p ∈ runs, 0 < p.2) →
      runs.Chain' (fun p q => p.1 ≠ q.1) →
      dedupAdjacent (runs.flatMap (fun p => List.replicate p.2 p.1)) =
        runs.map (fun p => p.1)) := by
  refine ⟨?_, ?_, ?_⟩
  · intro body ann
    exact dedupAdjacent_chain _
  · intro l hl
    cases l with
    | nil => rfl
    | cons x xs =>
      obtain ⟨hhead, htail⟩ := List.chain'_cons'.mp hl
      simp only [dedupAdjacent]
      rw [dedupAux_id xs x htail
        (fun c hc e => hhead c (Option.mem_def.mpr hc) (by rw [e]))]
  · intro runs hpos hch
    cases runs with
    | nil => rfl
    | cons r rs =>
      obtain ⟨hhead, htail⟩ := List.chain'_cons'.mp hch
      obtain ⟨x, n⟩ := r
      cases n with
      | zero => exact absurd (hpos (x, 0) (List.mem_cons_self _ _)) (by simp)
      | succ m =>
        rw [List.flatMap_cons, List.replicate_succ, List.cons_append]
        show dedupAdjacent (x :: (List.replicate m x ++
            (rs.flatMap (fun p => List.replicate p.2 p.1)))) =
          x :: rs.map (fun p => p.1)
        rw [show dedupAdjacent (x :: (List.replicate m x ++
            (rs.flatMap (fun p => List.replicate p.2 p.1)))) =
            x :: dedupAux x (List.replicate m x ++
              (rs.flatMap (fun p => List.replicate p.2 p.1))) from rfl,
          dedupAux_replicate]
        rw [dedupAux_runs rs x (fun p hp => hpos p (List.mem_cons_of_mem _ hp))
          htail (fun p hp e => hhead p (Option.mem_def.mpr hp) e.symm)]

/-- C4 witness: a concrete extraction output is duplicate-free; a list
with a non-adjacent duplicate passes through unchanged; and the run
decomposition aa/b/aaa collapses to one line per run, the non-adjacent
duplicate line surviving twice. -/
theorem c4_adjacent_dedup_witness :
    (extract_signposted_lines_from_body
      (.elem "body" [] (.ofList [.elem "p" [] (.ofList [.text "x"])]))
      false).Chain' (fun a b => a ≠ b) ∧
    dedupAdjacent ["a", "b", "a"] = ["a", "b", "a"] ∧
    dedupAdjacent ([("a", 2), ("b", 1), ("a", 3)].flatMap
      (fun p => List.replicate p.2 p.1)) =
      [("a", 2), ("b", 1), ("a", 3)].map (fun p => p.1) :=
  ⟨c4_adjacent_dedup.1 _ false,
   c4_adjacent_dedup.2.1 _ (by
     rw [List.chain'_cons, List.chain'_cons]
     exact ⟨by decide, by decide, List.chain'_singleton _⟩),
   c4_adjacent_dedup.2.2 [("a", 2), ("b", 1), ("a", 3)] (by decide) (by
     rw [List.chain'_cons, List.chain'_cons]
     exact ⟨by decide, by decide, List.chain'_singleton _⟩)⟩

/-! ## C3: a paragraph with two line breaks between two spans -/

theorem not_pySpace_not_HWS {c : Char} (h : isPySpace c = false) : isHWS c = false := by
  cases hw : isHWS c with
  | false => rfl
  | true =>
    rcases (by simpa [isHWS] using hw : c = ' ' ∨ c = '\t') with rfl | rfl
    · simp [isPySpace] at h
    · simp [isPySpace] at h

theorem data_ne_nil_of_ne_empty {s : String} (h : s ≠ "") : s.data ≠ [] := by
  intro hnil
  exact h (String.ext hnil)

theorem head_cons_eq {c y : Char} {l : List Char} (h : y ∈ (c :: l).head?) :
    y = c := by
  have h2 := Option.mem_def.mp h
  rw [List.head?_cons] at h2
  exact (Option.some_inj.mp h2).symm

/-- Assembling the normalisation invariant over
`text ++ newline ++ newline ++ text`. -/
theorem NormalisedL_append_brbr (a b : List Char)
    (hNa : NormalisedL a) (hNb : NormalisedL b)
    (hlastA : ∀ c, a.getLast? = some c → isHWS c = false)
    (hheadB : ∀ c, b.head? = some c → isHWS c = false) :
    NormalisedL (a ++ '\n' :: '\n' :: b) := by
  obtain ⟨hca, hHHa, hNHa, hHNa⟩ := hNa
  obtain ⟨hcb, hHHb, hNHb, hHNb⟩ := hNb
  refine ⟨?_, ?_, ?_, ?_⟩
  · intro c hc
    rcases List.mem_append.mp hc with h | h
    · exact hca c h
    · rcases List.mem_cons.mp h with rfl | h
      · exact ⟨by decide, by decide, by decide⟩
      · rcases List.mem_cons.mp h with rfl | h
        · exact ⟨by decide, by decide, by decide⟩
        · exact hcb c h
  · refine List.chain'_append.mpr ⟨hHHa, ?_, ?_⟩
    · refine List.chain'_cons'.mpr ⟨fun y _ => Or.inl isHWS_nl,
        List.chain'_cons'.mpr ⟨fun y _ => Or.inl isHWS_nl, hHHb⟩⟩
    · intro x _ y hyy
      rw [head_cons_eq hyy]
      exact Or.inr isHWS_nl
  · refine List.chain'_append.mpr ⟨hNHa, ?_, ?_⟩
    · refine List.chain'_cons'.mpr ⟨?_, List.chain'_cons'.mpr
        ⟨fun y hyh _ => hheadB y (Option.mem_def.mp hyh), hNHb⟩⟩
      intro y hyh _
      rw [head_cons_eq hyh]
      exact isHWS_nl
    · intro x _ y hyy
      rw [head_cons_eq hyy]
      intro _
      exact isHWS_nl
  · refine List.chain'_append.mpr ⟨hHNa, ?_, ?_⟩
    · refine List.chain'_cons'.mpr
        ⟨fun y _ h => absurd (isHWS_nl.symm.trans h) (by simp),
         List.chain'_cons'.mpr
        ⟨fun y _ h => absurd (isHWS_nl.symm.trans h) (by simp), hHNb⟩⟩
    · intro x hxx y hyy
      rw [head_cons_eq hyy]
      intro hx
      have hh := hlastA x (Option.mem_def.mp hxx)
      rw [hh] at hx
      exact absurd hx (by simp)

theorem p_line_ne_blank (s : String) : ("<p> " ++ s) ≠ "<p>" := by
  intro e
  have h := congrArg String.length e
  rw [String.length_append] at h
  rw [show ("<p> " : String).length = 4 from rfl,
    show ("<p>" : String).length = 3 from rfl] at h
  omega

/-- C3: a `<p>` whose children are a non-blank normalised span text,
`<br><br>`, and a second non-blank normalised span text emits exactly
three Paragraph lines — text, explicit blank, text — both from `handle`
and through the full extraction with its dedup pass
(app.py:121-124, 99-109). -/
theorem c3_p_br_br (ann : Bool) (ats sa sb : List (String × String)) (a b : String)
    (ha1 : normaliseStr a = a) (ha2 : pyStripStr a = a) (ha3 : a ≠ "")
    (ha4 : '\n' ∉ a.data)
    (hb1 : normaliseStr b = b) (hb2 : pyStripStr b = b) (hb3 : b ≠ "")
    (hb4 : '\n' ∉ b.data) :
    handle ann (.elem "p" ats (.ofList
        [.elem "span" sa (.ofList [.text a]),
         .elem "br" [] .nil, .elem "br" [] .nil,
         .elem "span" sb (.ofList [.text b])])) =
      ["<p> " ++ a, "<p>", "<p> " ++ b] ∧
    extract_signposted_lines_from_body
        (.elem "body" [] (.ofList [.elem "p" ats (.ofList
          [.elem "span" sa (.ofList [.text a]),
           .elem "br" [] .nil, .elem "br" [] .nil,
           .elem "span" sb (.ofList [.text b])])])) ann =
      ["<p> " ++ a, "<p>", "<p> " ++ b] := by
  have hpyA : pyStripL a.data = a.data := congrArg String.data ha2
  have hpyB : pyStripL b.data = b.data := congrArg String.data hb2
  have hadata : a.data ≠ [] := data_ne_nil_of_ne_empty ha3
  have hbdata : b.data ≠ [] := data_ne_nil_of_ne_empty hb3
  have hNa : NormalisedL a.data := by
    have h : normaliseL a.data = a.data := congrArg String.data ha1
    rw [← h]
    exact normaliseL_normalised a.data
  have hNb : NormalisedL b.data := by
    have h : normaliseL b.data = b.data := congrArg String.data hb1
    rw [← h]
    exact normaliseL_normalised b.data
  have hlastA : ∀ c, a.data.getLast? = some c → isHWS c = false := fun c hc =>
    not_pySpace_not_HWS (pyStripL_last_not a.data c (by rw [hpyA]; exact hc))
  have hheadB : ∀ c, b.data.head? = some c → isHWS c = false := fun c hc =>
    not_pySpace_not_HWS (pyStripL_head_not b.data c (by rw [hpyB]; exact hc))
  have hnorm : normaliseL (a.data ++ '\n' :: '\n' :: b.data) =
      a.data ++ '\n' :: '\n' :: b.data :=
    normalised_id _ (NormalisedL_append_brbr a.data b.data hNa hNb hlastA hheadB)
  set kids : NodeList := NodeList.ofList
      [.elem "span" sa (.ofList [.text a]),
       .elem "br" [] .nil, .elem "br" [] .nil,
       .elem "span" sb (.ofList [.text b])] with hkids
  have htxt : (etpbList ann kids).data = a.data ++ '\n' :: '\n' :: b.data := by
    show ((a ++ "") ++ ("\n" ++ ("\n" ++ ((b ++ "") ++ "")))).data = _
    simp [strData_append, show ("" : String).data = [] from rfl,
      show ("\n" : String).data = ['\n'] from rfl]
  have hemit : emit_lines ("p") (etpbList ann kids) =
      ["<p> " ++ a, "<p>", "<p> " ++ b] := by
    unfold emit_lines
    have hnd : (normaliseStr (etpbList ann kids)).data =
        a.data ++ '\n' :: '\n' :: b.data := by
      show normaliseL (etpbList ann kids).data = _
      rw [htxt, hnorm]
    rw [hnd, splitNL_append_nl a.data ('\n' :: b.data) ha4,
      show splitNL ('\n' :: b.data) = [] :: splitNL b.data from by simp [splitNL],
      splitNL_of_no_nl b.data hb4]
    simp only [List.flatMap_cons, List.flatMap_nil, List.append_nil]
    rw [hpyA, hpyB]
    rw [if_pos hadata, if_pos hbdata,
      if_neg (by simp [pyStripL] : ¬(pyStripL ([] : List Char) ≠ []))]
    have hmka : String.mk a.data = a := rfl
    have hmkb : String.mk b.data = b := rfl
    simp only [hmka, hmkb, if_true, ite_true, eq_self_iff_true,
      show ("<" ++ "p" ++ "> " : String) = "<p> " from rfl]
    simp
  have hcond : ((pyStripStr (etpbList ann kids) ≠ "" : Bool) ||
      containsChar (etpbList ann kids) '\n') = true := by
    have hcc : containsChar (etpbList ann kids) '\n' = true := by
      simp only [containsChar, htxt, decide_eq_true_eq]
      exact List.mem_append_right _ (List.mem_cons_self _ _)
    rw [hcc, Bool.or_true]
  have hhandle : handle ann (.elem "p" ats kids) =
      ["<p> " ++ a, "<p>", "<p> " ++ b] := by
    have hstep : handle ann (.elem "p" ats kids) =
        (if (pyStripStr (etpbList ann kids) ≠ "" : Bool) ||
            containsChar (etpbList ann kids) '\n'
         then emit_lines ("p") (etpbList ann kids)
         else []) ++ [] := rfl
    rw [hstep, List.append_nil, if_pos hcond, hemit]
  refine ⟨hhandle, ?_⟩
  have hext : extract_signposted_lines_from_body
      (.elem "body" [] (.ofList [.elem "p" ats kids])) ann =
      dedupAdjacent (handle ann (.elem "p" ats kids) ++ []) := rfl
  rw [hext, List.append_nil, hhandle]
  have h1 : ¬(("<p>" : String) = "<p> " ++ a) := fun e => p_line_ne_blank a e.symm
  have h2 : ¬(("<p> " ++ b : String) = "<p>") := p_line_ne_blank b
  simp [dedupAdjacent, dedupAux, h1, h2]

/-- C3 witness at concrete span texts. -/
theorem c3_p_br_br_witness :
    handle false (.elem "p" [] (.ofList
        [.elem "span" [] (.ofList [.text "Hello"]),
         .elem "br" [] .nil, .elem "br" [] .nil,
         .elem "span" [] (.ofList [.text "World"])])) =
      ["<p> " ++ "Hello", "<p>", "<p> " ++ "World"] ∧
    extract_signposted_lines_from_body
        (.elem "body" [] (.ofList [.elem "p" [] (.ofList
          [.elem "span" [] (.ofList [.text "Hello"]),
           .elem "br" [] .nil, .elem "br" [] .nil,
           .elem "span" [] (.ofList [.text "World"])])])) false =
      ["<p> " ++ "Hello", "<p>", "<p> " ++ "World"] :=
  c3_p_br_br false [] [] [] "Hello" "World" rfl rfl (by decide) (by decide)
    rfl rfl (by decide) (by decide)

/-! ## C9: the shape invariant of every emitted line -/

theorem mkStr_ne_empty {ss : List Char} (h : ss ≠ []) : String.mk ss ≠ "" :=
  fun e => h (congrArg String.data e)

theorem heading_mem_tag_set {name : String} (h : name ∈ HEADING_TAGS) :
    name ∈ TAG_SET := by
  simp only [HEADING_TAGS, List.mem_cons, List.not_mem_nil, or_false] at h
  rcases h with rfl | rfl | rfl | rfl | rfl | rfl <;> decide

/-- Every line produced by `emit_lines` with a heading or paragraph tag
has the line shape. -/
theorem emit_shape (tag : String) (htag : tag ∈ TAG_SET) (text : String) :
    ∀ s ∈ emit_lines tag text, LineShape s := by
  intro s hs
  unfold emit_lines at hs
  obtain ⟨seg, hseg, hmem⟩ := List.mem_flatMap.mp hs
  simp only at hmem
  by_cases h : pyStripL seg ≠ []
  · rw [if_pos h] at hmem
    rw [List.mem_singleton] at hmem
    subst hmem
    refine Or.inr ⟨tag, String.mk (pyStripL seg), htag, rfl,
      mkStr_ne_empty h, ?_, ?_⟩
    · intro hnl
      exact splitNL_mem_no_nl _ seg hseg (pyStripL_mem hnl)
    · exact congrArg String.mk (pyStripL_idem seg)
  · rw [if_neg h] at hmem
    by_cases h2 : tag = "p"
    · rw [if_pos h2] at hmem
      rw [List.mem_singleton] at hmem
      subst hmem
      exact Or.inl rfl
    · rw [if_neg h2] at hmem
      simp at hmem

theorem subLiLines_shape (ann : Bool) (subLi : Node) :
    ∀ s ∈ subLiLines ann subLi, LineShape s := by
  intro s hs
  simp only [subLiLines] at hs
  by_cases h : pyStripStr (extract_text_preserve_breaks ann subLi) ≠ ""
  · rw [if_pos h] at hs
    exact emit_shape ("p") (by decide) _ s hs
  · rw [if_neg h] at hs
    simp at hs

theorem liLines_shape (ann : Bool) (li : Node) :
    ∀ s ∈ liLines ann li, LineShape s := by
  intro s hs
  simp only [liLines] at hs
  rcases List.mem_append.mp hs with h1 | h1
  · by_cases h : pyStripStr (extract_text_preserve_breaks ann li) ≠ ""
    · rw [if_pos h] at h1
      exact emit_shape ("p") (by decide) _ s h1
    · rw [if_neg h] at h1
      simp at h1
  · obtain ⟨sub, _, hsub⟩ := List.mem_flatMap.mp h1
    obtain ⟨subLi, _, hsubLi⟩ := List.mem_flatMap.mp hsub
    exact subLiLines_shape ann subLi s hsubLi

theorem branchLines_shape (ann : Bool) (name : String) (cs : NodeList) :
    ∀ s ∈ branchLines ann name cs, LineShape s := by
  intro s hs
  simp only [branchLines] at hs
  by_cases h1 : decide (name ∈ HEADING_TAGS) = true
  · rw [if_pos h1] at hs
    by_cases h2 : pyStripStr (etpbList ann cs) ≠ ""
    · rw [if_pos h2] at hs
      exact emit_shape name (heading_mem_tag_set (of_decide_eq_true h1)) _ s hs
    · rw [if_neg h2] at hs
      simp at hs
  · rw [if_neg h1] at hs
    by_cases h2 : name = "p"
    · rw [if_pos h2] at hs
      by_cases h3 : ((pyStripStr (etpbList ann cs) ≠ "" : Bool) ||
          containsChar (etpbList ann cs) '\n') = true
      · rw [if_pos h3] at hs
        exact emit_shape ("p") (by decide) _ s hs
      · rw [if_neg h3] at hs
        simp at hs
    · rw [if_neg h2] at hs
      by_cases h3 : ((name = "ul" : Bool) || (name = "ol" : Bool)) = true
      · rw [if_pos h3] at hs
        obtain ⟨li, _, hli⟩ := List.mem_flatMap.mp hs
        exact liLines_shape ann li s hli
      · rw [if_neg h3] at hs
        simp at hs

mutual

/-- Every line produced by `handle` has the line shape. -/
theorem handle_shape (ann : Bool) : ∀ (n : Node), ∀ s ∈ handle ann n, LineShape s
  | .text _ => by
    intro s hs
    simp [handle] at hs
  | .elem name ats cs => by
    intro s hs
    rw [show handle ann (.elem name ats cs) =
        if decide (name ∈ ALWAYS_STRIP) = true then []
        else branchLines ann name cs ++ handleList ann cs from rfl] at hs
    by_cases h : decide (name ∈ ALWAYS_STRIP) = true
    · rw [if_pos h] at hs
      simp at hs
    · rw [if_neg h] at hs
      rcases List.mem_append.mp hs with h2 | h2
      · exact branchLines_shape ann name cs s h2
      · exact handleList_shape ann cs s h2

/-- Every line produced by the child recursion of `handle` has the line
shape. -/
theorem handleList_shape (ann : Bool) : ∀ (cs : NodeList),
    ∀ s ∈ handleList ann cs, LineShape s
  | .nil => by
    intro s hs
    simp [handleList] at hs
  | .cons c cs => by
    intro s hs
    rw [show handleList ann (.cons c cs) =
        handle ann c ++ handleList ann cs from rfl] at hs
    rcases List.mem_append.mp hs with h2 | h2
    · exact handle_shape ann c s h2
    · exact handleList_shape ann cs s h2

end

theorem dedupAux_subset : ∀ (l : List String) (prev s : String),
    s ∈ dedupAux prev l → s ∈ l := by
  intro l
  induction l with
  | nil => intro prev s hs; simp [dedupAux] at hs
  | cons x xs ih =>
    intro prev s hs
    by_cases hx : x = prev
    · rw [show dedupAux prev (x :: xs) = dedupAux prev xs from by
        simp [dedupAux, hx]] at hs
      exact List.mem_cons_of_mem x (ih prev s hs)
    · rw [show dedupAux prev (x :: xs) = x :: dedupAux x xs from by
        simp [dedupAux, hx]] at hs
      rcases List.mem_cons.mp hs with rfl | hs
      · exact List.mem_cons_self _ _
      · exact List.mem_cons_of_mem x (ih x s hs)

theorem dedupAdjacent_subset (l : List String) (s : String)
    (hs : s ∈ dedupAdjacent l) : s ∈ l := by
  cases l with
  | nil => simp [dedupAdjacent] at hs
  | cons x xs =>
    simp only [dedupAdjacent] at hs
    rcases List.mem_cons.mp hs with rfl | hs
    · exact List.mem_cons_self _ _
    · exact List.mem_cons_of_mem x (dedupAux_subset xs x s hs)

/-- C9: every string in the extraction output is either the explicit
blank-paragraph marker or a signpost among h1..h6/p followed by one
space and a non-empty, newline-free, fully stripped text
(app.py:97-155). -/
theorem c9_line_shape (body : Node) (ann : Bool) (s : String)
    (h : s ∈ extract_signposted_lines_from_body body ann) :
    s = "<p>" ∨
      ∃ t r, t ∈ TAG_SET ∧ s = "<" ++ t ++ "> " ++ r ∧ r ≠ "" ∧
        '\n' ∉ r.data ∧ pyStripStr r = r :=
  handleList_shape ann (childrenOf body) s
    (dedupAdjacent_subset _ s h)

/-- C9 witness at a concrete body. -/
theorem c9_line_shape_witness :
    "<p> Hi" = "<p>" ∨
      ∃ t r, t ∈ TAG_SET ∧ "<p> Hi" = "<" ++ t ++ "> " ++ r ∧ r ≠ "" ∧
        '\n' ∉ r.data ∧ pyStripStr r = r :=
  c9_line_shape
    (.elem "body" [] (.ofList [.elem "p" [] (.ofList [.text "Hi"])]))
    false "<p> Hi" (by decide)
